import Mathlib

/-!
Shallow embedding of the command-authorization engine of the `bots`
repository, together with theorems settling the specification claims.

The embedding follows the Python sources:
* `src/bots/command/permissions.py` — quote tracker, compound splitter,
  component normalizer, rule matcher, permission evaluator;
* `src/bots/command/executor.py` — the execution wrapper;
* `src/bots/permissions.py` with `normalize_command` from `src/bot/utils.py`
  — the fnmatch-based evaluator with the session approval cache.

Python strings are modelled as `String`/`List Char`; code that can raise an
exception is modelled with `Option`, where `none` stands for an exception
escaping the modelled code.  The Python standard library pieces whose
behaviour the code depends on (`shlex.split`, `str.split`, `str.strip`,
`str.find`, the short-flag regular expression) are embedded concretely;
`fnmatch.fnmatch`, on whose behaviour no claim depends, is passed in as an
opaque function parameter.
-/

set_option autoImplicit false

namespace Bots

/-- Whitespace characters as used by `str.split`/`str.strip` and the
`shlex` whitespace set (space, tab, newline, carriage return). -/
def isSpace (c : Char) : Bool :=
  c = ' ' ∨ c = '\t' ∨ c = '\n' ∨ c = '\r'

/-- ASCII letter test, the `[a-zA-Z]` class of the short-flag regex. -/
def isAsciiLetter (c : Char) : Bool :=
  ('a' ≤ c ∧ c ≤ 'z') ∨ ('A' ≤ c ∧ c ≤ 'Z')

/-- Python `str.strip()` on a character list. -/
def trimL (s : List Char) : List Char :=
  ((s.dropWhile isSpace).reverse.dropWhile isSpace).reverse

/-- Helper for `splitWs`: accumulates the current word (reversed). -/
def splitWsAux : List Char → List Char → List (List Char)
  | [], cur => if cur = [] then [] else [cur.reverse]
  | c :: rest, cur =>
    if isSpace c then
      if cur = [] then splitWsAux rest [] else cur.reverse :: splitWsAux rest []
    else splitWsAux rest (c :: cur)

/-- Python `str.split()` with no argument: split on whitespace runs,
dropping empty results. -/
def splitWs (s : List Char) : List (List Char) :=
  splitWsAux s []

/-- Python `" ".join(xs)`. -/
def joinSpace : List String → String
  | [] => ""
  | [x] => x
  | x :: rest => x ++ " " ++ joinSpace rest

/-- Python `s.split(sep, 1)` for a single-character separator, returning
`none` when the separator does not occur (the `sep in s` test). -/
def splitOnce (sep : Char) : List Char → Option (List Char × List Char)
  | [] => none
  | c :: rest =>
    if c = sep then some ([], rest)
    else (splitOnce sep rest).map (fun p => (c :: p.1, p.2))

/-- Pattern `pat` occurs at the start of `s`. -/
def startsWithPat : List Char → List Char → Bool
  | [], _ => true
  | _ :: _, [] => false
  | p :: ps, c :: cs => p = c ∧ startsWithPat ps cs

/-- Python `s.find(pat)` for a non-empty pattern: index of the first
occurrence, or `none` (which also models the `pat in s` test). -/
def findIdx : List Char → List Char → Option Nat
  | [], pat => if pat = [] then some 0 else none
  | c :: rest, pat =>
    if startsWithPat pat (c :: rest) then some 0
    else (findIdx rest pat).map (· + 1)

/-! ### Quote tracker (`_is_in_quotes`, permissions.py lines 26-55) -/

/-- Scanning core of `_is_in_quotes`: walks at most `fuel` characters
maintaining `in_single_quotes`, `in_double_quotes`, `escaped`. -/
def isInQuotesAux : List Char → Nat → Bool → Bool → Bool → Bool
  | _, 0, ins, ind, _ => ins ∨ ind
  | [], _ + 1, ins, ind, _ => ins ∨ ind
  | c :: rest, n + 1, ins, ind, esc =>
    if c = '\\' ∧ esc = false then isInQuotesAux rest n ins ind true
    else if c = '"' ∧ esc = false ∧ ins = false then isInQuotesAux rest n ins (!ind) false
    else if c = '\'' ∧ esc = false ∧ ind = false then isInQuotesAux rest n (!ins) ind false
    else isInQuotesAux rest n ins ind false

/-- `_is_in_quotes(string, position)`: is `position` inside an open quote,
judging from the characters strictly before it. -/
def isInQuotes (s : List Char) (pos : Nat) : Bool :=
  isInQuotesAux s pos false false false

/-! ### Compound splitter (`split_command`, permissions.py lines 58-133) -/

/-- Flush the accumulator as one component if non-empty after stripping. -/
def flushAcc (acc : List Char) (op : Option String) : List (String × Option String) :=
  if trimL acc = [] then [] else [(String.mk (trimL acc), op)]

/-- The quote-state update of `split_command` for one character: toggle
`in_quotes`/`quote_char` when the character is an unescaped quote. -/
def quoteStep (c : Char) (inQ : Bool) (qc : Option Char) (esc : Bool) : Bool × Option Char :=
  if (c = '"' ∨ c = '\'') ∧ esc = false then
    if inQ = false then (true, some c)
    else if qc = some c then (false, none)
    else (inQ, qc)
  else (inQ, qc)

/-- Scanning core of `split_command`: characters left to process,
accumulated current command, `in_quotes`, `quote_char`, `escaped`.  The
operator test follows the source order `|`, `&&`, `||`, `;` via the
two-character lookahead `command[i:i+2]`; when only one character remains
the two-character operator `&&` cannot match, which the second pattern
records explicitly (and `||` can never match at all, being shadowed by
`|`). -/
def splitAux : List Char → List Char → Bool → Option Char → Bool → List (String × Option String)
  | [], acc, _, _, _ => flushAcc acc none
  | [c], acc, inQ, qc, esc =>
    if c = '\\' ∧ esc = false then
      splitAux [] (acc ++ [c]) inQ qc true
    else
      if (quoteStep c inQ qc esc).1 then
        splitAux [] (acc ++ [c]) (quoteStep c inQ qc esc).1 (quoteStep c inQ qc esc).2 false
      else if c = '|' then
        flushAcc acc (some "|")
          ++ splitAux [] [] (quoteStep c inQ qc esc).1 (quoteStep c inQ qc esc).2 esc
      else if c = ';' then
        flushAcc acc (some ";")
          ++ splitAux [] [] (quoteStep c inQ qc esc).1 (quoteStep c inQ qc esc).2 esc
      else splitAux [] (acc ++ [c]) (quoteStep c inQ qc esc).1 (quoteStep c inQ qc esc).2 false
  | c :: c2 :: rest2, acc, inQ, qc, esc =>
    if c = '\\' ∧ esc = false then
      splitAux (c2 :: rest2) (acc ++ [c]) inQ qc true
    else
      if (quoteStep c inQ qc esc).1 then
        splitAux (c2 :: rest2) (acc ++ [c])
          (quoteStep c inQ qc esc).1 (quoteStep c inQ qc esc).2 false
      else if c = '|' then
        flushAcc acc (some "|")
          ++ splitAux (c2 :: rest2) [] (quoteStep c inQ qc esc).1 (quoteStep c inQ qc esc).2 esc
      else if c = '&' ∧ c2 = '&' then
        flushAcc acc (some "&&")
          ++ splitAux rest2 [] (quoteStep c inQ qc esc).1 (quoteStep c inQ qc esc).2 esc
      else if c = ';' then
        flushAcc acc (some ";")
          ++ splitAux (c2 :: rest2) [] (quoteStep c inQ qc esc).1 (quoteStep c inQ qc esc).2 esc
      else splitAux (c2 :: rest2) (acc ++ [c])
        (quoteStep c inQ qc esc).1 (quoteStep c inQ qc esc).2 false

/-- `split_command(command)`: list of `(raw_command, operator)` pairs.
The operator token `||` is shadowed by `|` exactly as in the source,
because `|` is tested first at each position. -/
def splitCommand (command : String) : List (String × Option String) :=
  splitAux command.data [] false none false

/-! ### Tokenizer (`shlex.split`, CPython `shlex.py`, posix mode,
`whitespace_split=True`, no comment characters) -/

/-- States of the `shlex` scanner: between tokens, inside a word, inside
single/double quotes, after a backslash seen in word context or inside
double quotes. -/
inductive ShState where
  | start
  | word
  | squote
  | dquote
  | escWord
  | escDquote
deriving DecidableEq

/-- Scanning core of `shlex.split`: input, state, current token, the posix
`quoted` flag, accumulated tokens (reversed).  `none` models the
`ValueError` raised on an unbalanced quote or a trailing escape. -/
def shlexAux : List Char → ShState → List Char → Bool → List String → Option (List String)
  | [], st, tok, quoted, acc =>
    match st with
    | .start => some acc.reverse
    | .word => if tok = [] ∧ quoted = false then some acc.reverse
               else some (String.mk tok :: acc).reverse
    | _ => none
  | c :: rest, st, tok, quoted, acc =>
    match st with
    | .start =>
      if isSpace c then
        if tok = [] ∧ quoted = false then shlexAux rest .start tok quoted acc
        else shlexAux rest .start [] false (String.mk tok :: acc)
      else if c = '\\' then shlexAux rest .escWord tok quoted acc
      else if c = '\'' then shlexAux rest .squote tok quoted acc
      else if c = '"' then shlexAux rest .dquote tok quoted acc
      else shlexAux rest .word (tok ++ [c]) quoted acc
    | .word =>
      if isSpace c then
        if tok = [] ∧ quoted = false then shlexAux rest .start tok quoted acc
        else shlexAux rest .start [] false (String.mk tok :: acc)
      else if c = '\'' then shlexAux rest .squote tok quoted acc
      else if c = '"' then shlexAux rest .dquote tok quoted acc
      else if c = '\\' then shlexAux rest .escWord tok quoted acc
      else shlexAux rest .word (tok ++ [c]) quoted acc
    | .squote =>
      if c = '\'' then shlexAux rest .word tok true acc
      else shlexAux rest .squote (tok ++ [c]) true acc
    | .dquote =>
      if c = '"' then shlexAux rest .word tok true acc
      else if c = '\\' then shlexAux rest .escDquote tok true acc
      else shlexAux rest .dquote (tok ++ [c]) true acc
    | .escWord => shlexAux rest .word (tok ++ [c]) quoted acc
    | .escDquote =>
      if c = '"' ∨ c = '\\' then shlexAux rest .dquote (tok ++ [c]) quoted acc
      else shlexAux rest .dquote (tok ++ ['\\', c]) quoted acc

/-- `shlex.split(s)` in posix mode: `none` models a raised `ValueError`. -/
def shlexSplit (s : String) : Option (List String) :=
  shlexAux s.data .start [] false []

/-! ### Component normalizer (`normalize_command`, permissions.py 136-203) -/

/-- The `Command` dataclass of `bots/command/permissions.py`. -/
structure Command where
  command : String
  has_redirection : Bool := false
  via_bash : Bool := false
  invalid : Bool := false
deriving DecidableEq, Repr

/-- The fixed redirection token list, in source order. -/
def redirTokens : List String :=
  [">", ">>", "<", "<<", "2>", "2>>", "&>", "&>>"]

/-- The redirection-stripping loop of `normalize_command`: for each token
in order, if the token occurs and its first occurrence is not inside
quotes, truncate before that occurrence (stripped) and stop. -/
def stripRedirLoop : List String → List Char → List Char × Bool
  | [], raw => (raw, false)
  | t :: ts, raw =>
    match findIdx raw t.data with
    | some i =>
      if isInQuotes raw i then stripRedirLoop ts raw
      else (trimL (raw.take i), true)
    | none => stripRedirLoop ts raw

/-- Normalization of one split component (the loop body of
`normalize_command`): redirection stripping, `shlex` tokenization,
`bash -c`/`bash -lc` unwrapping; a tokenization error yields an `invalid`
component that keeps the pre-tokenization text. -/
def normalizeComponent (raw : String) : Option Command :=
  let sr := stripRedirLoop redirTokens raw.data
  let rawCmd : String := String.mk sr.1
  match shlexSplit rawCmd with
  | some parsed =>
    match parsed with
    | [] => none
    | p0 :: ps =>
      match ps with
      | p1 :: p2 :: _ =>
        if p0 = "bash" ∧ (p1 = "-c" ∨ p1 = "-lc") then
          some { command := p2, has_redirection := sr.2, via_bash := true }
        else some { command := rawCmd, has_redirection := sr.2 }
      | _ => some { command := rawCmd, has_redirection := sr.2 }
  | none =>
    if splitWs rawCmd.data = [] then none
    else some { command := rawCmd, has_redirection := sr.2, invalid := true }

/-- `normalize_command(command)`: split into components and normalize each,
dropping components that tokenize to nothing. -/
def normalizeCommand (command : String) : List Command :=
  (splitCommand command).filterMap (fun p => normalizeComponent p.1)

/-! ### Rule matcher (`matches_rule`, permissions.py 206-267) -/

/-- Word-by-word prefix consumption: every word of the rule command must
equal the next unconsumed word of the command string. -/
def consumeRuleParts : List (List Char) → List (List Char) → Bool
  | [], _ => true
  | _ :: _, [] => false
  | rp :: rps, cp :: cps => rp = cp ∧ consumeRuleParts rps cps

/-- The `[a-zA-Z]*F` part of the short-flag regex: scanning after a dash,
the flag character must appear after a (possibly empty) run of letters. -/
def flagRun (fl : Char) : List Char → Bool
  | [] => false
  | c :: rest => if c = fl then true else if isAsciiLetter c then flagRun fl rest else false

/-- `re.search` of the pattern `(?<!\S)-[a-zA-Z]*F[a-zA-Z]*`: somewhere in
the string, a dash preceded by start-of-string or whitespace is followed
by letters and the flag character.  The first argument records whether the
current position is at such a boundary. -/
def searchShort (fl : Char) : Bool → List Char → Bool
  | _, [] => false
  | atBoundary, c :: rest =>
    if atBoundary ∧ c = '-' ∧ flagRun fl rest then true
    else searchShort fl (isSpace c) rest

/-- `matches_rule(command_string, rule)`. -/
def matchesRule (commandString rule : String) : Bool :=
  let parsedRule : String × Option String :=
    match splitOnce ':' rule.data with
    | some p => (String.mk p.1, some (String.mk p.2))
    | none => (rule, none)
  let ruleCommand := parsedRule.1
  let ruleFilter := parsedRule.2
  if ruleCommand = "" then false
  else if consumeRuleParts (splitWs ruleCommand.data) (splitWs commandString.data) = false then false
  else
    match ruleFilter with
    | none => true
    | some f =>
      if f = "" then true
      else
        let isShort : Bool :=
          match f.data with
          | '-' :: '-' :: _ => false
          | '-' :: _ => true
          | _ => false
        let isLong : Bool :=
          match f.data with
          | '-' :: '-' :: _ => true
          | _ => false
        if isShort then
          let flags := f.data.filter (fun c => c ≠ '-')
          if flags = [] then false
          else flags.all (fun fl => searchShort fl true commandString.data)
        else if isLong then
          decide (f.data ∈ splitWs commandString.data)
        else false

/-! ### Permission evaluator (`CommandPermissions.permit_command`,
permissions.py 270-320) -/

/-- The three-valued decision enum. -/
inductive Permission where
  | DENY
  | APPROVE
  | ASK
deriving DecidableEq, Repr

/-- The `CommandPermissions` configuration of `bots/command/permissions.py`
(the session cache field is unused by `permit_command`). -/
structure CommandPermissionsC where
  allow : List String
  deny : List String
  ask_if_unspecified : Bool := true

/-- Python `component.command.split()[0] if component.command else ""`:
`none` models the `IndexError` raised when the command text is non-empty
but consists of whitespace only. -/
def baseCmdOf (comp : Command) : Option String :=
  if comp.command = "" then some ""
  else
    match splitWs comp.command.data with
    | [] => none
    | w :: _ => some (String.mk w)

/-- The rule prefilter `[rule for rule in rules if rule.split()[0] == base]`
evaluates `rule.split()[0]` for every rule: `none` models the `IndexError`
raised when some rule is empty or whitespace-only. -/
def headsOf : List String → Option (List (String × String))
  | [] => some []
  | r :: rs =>
    match splitWs r.data with
    | [] => none
    | w :: _ => (headsOf rs).map (fun l => (String.mk w, r) :: l)

/-- The per-component body of the `permit_command` loop.  The source's
early `return Permission.DENY` statements are exactly the `DENY` votes;
`APPROVE`/`ASK` votes are appended to `results`. -/
def componentVote (cfg : CommandPermissionsC) (comp : Command) : Option Permission :=
  match baseCmdOf comp with
  | none => none
  | some base =>
    if comp.invalid then some .DENY
    else
      match headsOf cfg.deny with
      | none => none
      | some dpairs =>
        if (dpairs.filter (fun p => p.1 = base)).any (fun p => matchesRule comp.command p.2) then
          some .DENY
        else
          match headsOf cfg.allow with
          | none => none
          | some apairs =>
            if (apairs.filter (fun p => p.1 = base)).any (fun p => matchesRule comp.command p.2) then
              some .APPROVE
            else some .ASK

/-- The `for component in components` loop of `permit_command`, with the
vote combination performed after the loop. -/
def permitLoop (cfg : CommandPermissionsC) : List Command → List Permission → Option Permission
  | [], results => some (if Permission.ASK ∈ results then .ASK else .APPROVE)
  | comp :: rest, results =>
    match componentVote cfg comp with
    | none => none
    | some .DENY => some .DENY
    | some v => permitLoop cfg rest (results ++ [v])

/-- `CommandPermissions.permit_command(command)`: `none` models an
exception escaping the method. -/
def permitCommand (cfg : CommandPermissionsC) (command : String) : Option Permission :=
  let components := normalizeCommand command
  if components = [] then some .ASK
  else permitLoop cfg components []

/-! ### Command executor (`CommandExecutor.execute_command`,
executor.py 38-174) -/

/-- A single-quote character, used in the executor's error messages. -/
def squote : Char := Char.ofNat 39

/-- Outcome of the decision phase of `execute_command`: either an early
return carrying `(success, output, error, exit_code)` with no child
process spawned, or the spawning of `command` through the shell. -/
inductive ExecPhase where
  | done (success : Bool) (output : String) (error : Option String) (exitCode : Int)
  | spawn (command : String)
deriving DecidableEq, Repr

/-- The decision phase of `execute_command` up to (but not including) the
`create_subprocess_shell` call: empty-command short circuit, permission
check, denial returns and the interactive `Confirm.ask` prompt (its answer
is the `userConfirms` parameter; `auto_approve` is the method argument).
`none` models an exception raised by `permit_command` (that call is
outside the executor's `try` block). -/
def executeCommandPhase (cfg : CommandPermissionsC) (command : String)
    (autoApprove userConfirms : Bool) : Option ExecPhase :=
  if command = "" ∨ trimL command.data = [] then
    some (.done false "" (some "Empty command") 1)
  else
    match permitCommand cfg command with
    | none => none
    | some .DENY =>
      some (.done false ""
        (some ("Command " ++ String.mk [squote] ++ command ++ String.mk [squote]
          ++ " is not allowed by bot permissions")) 1)
    | some .APPROVE => some (.spawn command)
    | some .ASK =>
      if autoApprove then some (.spawn command)
      else if userConfirms then some (.spawn command)
      else
        some (.done false ""
          (some ("Command " ++ String.mk [squote] ++ command ++ String.mk [squote]
            ++ " was not approved by the user.")) 1)

/-- The result dictionary assembled after the spawned process terminates
(executor.py 141-163): `output` is the decoded stdout, `error` is the
decoded stderr only when stderr is non-empty and the exit code is
non-zero, `success` is exit code zero. -/
structure ExecResult where
  success : Bool
  output : String
  error : Option String
  exit_code : Int
  command : String
deriving DecidableEq, Repr

/-- Assembly of the execution result from the terminated process's decoded
stdout, decoded stderr and return code. -/
def buildExecResult (command stdoutS stderrS : String) (returncode : Int) : ExecResult :=
  { success := returncode = 0
    output := stdoutS
    error := if stderrS ≠ "" ∧ returncode ≠ 0 then some stderrS else none
    exit_code := returncode
    command := command }

/-! ### The fnmatch-based evaluator (`src/bots/permissions.py`) with the
dict-shaped normalizer (`normalize_command` of `src/bot/utils.py`, the
module `bots/permissions.py` imports as `bots.utils`) -/

/-- The `CommandAction` enum of `bots/llm/schemas.py`. -/
inductive CommandAction where
  | EXECUTE
  | ASK
  | DENY
deriving DecidableEq, Repr

/-- One normalized component in dict shape: base command, argument list,
redirection and `bash -c` flags. -/
structure UComponent where
  command : String
  args : List String
  has_redirection : Bool := false
  via_bash : Bool := false
deriving DecidableEq, Repr

/-- Normalization of one split component in `bot/utils.py`
`normalize_command`: like the dataclass version but the tokens are kept
(first token is the command, the rest are args), a `bash -c` inner script
is re-tokenized, and a tokenization failure falls back to plain
whitespace splitting with no invalid marker. -/
def normalizeComponentU (raw : String) : Option UComponent :=
  let sr := stripRedirLoop redirTokens raw.data
  let rawCmd : String := String.mk sr.1
  match shlexSplit rawCmd with
  | some parsed =>
    match parsed with
    | [] => none
    | p0 :: ps =>
      match ps with
      | p1 :: p2 :: _ =>
        if p0 = "bash" ∧ (p1 = "-c" ∨ p1 = "-lc") then
          match shlexSplit p2 with
          | some (s0 :: ss) =>
            some { command := s0, args := ss, has_redirection := sr.2, via_bash := true }
          | some [] => some { command := "bash", args := ps, has_redirection := sr.2 }
          | none => some { command := "bash", args := ps, has_redirection := sr.2 }
        else some { command := p0, args := ps, has_redirection := sr.2 }
      | _ => some { command := p0, args := ps, has_redirection := sr.2 }
  | none =>
    match splitWs rawCmd.data with
    | [] => none
    | w :: ws => some { command := String.mk w, args := ws.map String.mk, has_redirection := sr.2 }

/-- `normalize_command(command)` of `bot/utils.py`. -/
def normalizeCommandU (command : String) : List UComponent :=
  (splitCommand command).filterMap (fun p => normalizeComponentU p.1)

/-- `CommandPermissions._parse_pattern` of `bots/permissions.py`. -/
def parsePattern (pattern : String) : String × Option String :=
  match splitOnce ':' pattern.data with
  | none => (pattern, none)
  | some p => (String.mk p.1, some (String.mk p.2))

/-- One allow/deny pattern check of `validate_command`: the base command
must `fnmatch` the pattern's command part, and then either there is no
args pattern, or the whole pattern equals the base command, or the joined
args `fnmatch` the args pattern.  `fn` is `fnmatch.fnmatch`. -/
def patternMatches (fn : String → String → Bool) (base argsStr pattern : String) : Bool :=
  let parsed := parsePattern pattern
  fn base parsed.1 &&
    match parsed.2 with
    | none => true
    | some ap => (pattern == base) || fn argsStr ap

/-- The session approval cache `_approved_commands`: a string-keyed map
modelled as an association list with Python-dict update semantics. -/
def lookupKey : List (String × Bool) → String → Option Bool
  | [], _ => none
  | (k, v) :: rest, key => if k = key then some v else lookupKey rest key

/-- Python `cache[key] = value`: overwrite in place or append. -/
def setKey : List (String × Bool) → String → Bool → List (String × Bool)
  | [], k, v => [(k, v)]
  | (k', v') :: rest, k, v =>
    if k' = k then (k, v) :: rest else (k', v') :: setKey rest k v

/-- The per-component loop of `validate_command`: skip empty base
commands, consult the session cache by `base:args` key, then deny
patterns, then allow patterns, then the `ask_if_unspecified` fallback. -/
def votesU (fn : String → String → Bool) (allow deny : List String)
    (askIfUnspecified : Bool) (cache : List (String × Bool)) :
    List UComponent → List CommandAction
  | [] => []
  | comp :: rest =>
    if comp.command = "" then votesU fn allow deny askIfUnspecified cache rest
    else
      let argsStr := joinSpace comp.args
      let key := comp.command ++ ":" ++ argsStr
      match lookupKey cache key with
      | some b =>
        (if b then CommandAction.EXECUTE else CommandAction.DENY)
          :: votesU fn allow deny askIfUnspecified cache rest
      | none =>
        if deny.any (patternMatches fn comp.command argsStr) then
          CommandAction.DENY :: votesU fn allow deny askIfUnspecified cache rest
        else if allow.any (patternMatches fn comp.command argsStr) then
          CommandAction.EXECUTE :: votesU fn allow deny askIfUnspecified cache rest
        else
          (if askIfUnspecified then CommandAction.ASK else CommandAction.DENY)
            :: votesU fn allow deny askIfUnspecified cache rest

/-- `CommandPermissions.validate_command` of `bots/permissions.py`:
normalize, vote per component (cache first, deny before allow), then
most-restrictive combination. -/
def validateCommand (fn : String → String → Bool) (allow deny : List String)
    (askIfUnspecified : Bool) (cache : List (String × Bool)) (command : String) :
    CommandAction :=
  let comps := normalizeCommandU command
  if comps = [] then (if askIfUnspecified then .ASK else .DENY)
  else
    let results := votesU fn allow deny askIfUnspecified cache comps
    if results = [] then (if askIfUnspecified then .ASK else .DENY)
    else if CommandAction.DENY ∈ results then .DENY
    else if CommandAction.ASK ∈ results then .ASK
    else .EXECUTE

/-- The per-component loop of `approve_command`: cache each non-empty
component under its `base:args` key, and with `always` also append a
synthesized pattern to the allow list when not already present. -/
def approveLoop (always : Bool) :
    List UComponent → List String × List (String × Bool) → List String × List (String × Bool)
  | [], st => st
  | comp :: rest, st =>
    if comp.command = "" then approveLoop always rest st
    else
      let argsStr := joinSpace comp.args
      let key := comp.command ++ ":" ++ argsStr
      let cache' := setKey st.2 key true
      if always then
        let pat := if argsStr ≠ "" then key else comp.command
        if pat ∈ st.1 then approveLoop always rest (st.1, cache')
        else approveLoop always rest (st.1 ++ [pat], cache')
      else approveLoop always rest (st.1, cache')

/-- `CommandPermissions.approve_command(command, always)`: returns the
updated allow list and session cache. -/
def approveCommand (allow : List String) (cache : List (String × Bool))
    (command : String) (always : Bool) : List String × List (String × Bool) :=
  approveLoop always (normalizeCommandU command) (allow, cache)

/-! ### Statement-side helpers -/

/-- Sequence of per-component votes; `none` when some component's
processing raises. -/
def componentVotes (cfg : CommandPermissionsC) : List Command → Option (List Permission)
  | [] => some []
  | c :: cs =>
    match componentVote cfg c, componentVotes cfg cs with
    | some v, some vs => some (v :: vs)
    | _, _ => none

/-- Most-restrictive combination of votes: any `DENY` dominates, then any
`ASK`, else `APPROVE`. -/
def combineVotes (votes : List Permission) : Permission :=
  if Permission.DENY ∈ votes then .DENY
  else if Permission.ASK ∈ votes then .ASK
  else .APPROVE

/-! ## Helper lemmas -/

theorem headsOf_mem_pair (rules : List String) (pairs : List (String × String))
    (r : String) (w : List Char) (rws : List (List Char))
    (h : headsOf rules = some pairs) (hr : r ∈ rules) (hw : splitWs r.data = w :: rws) :
    (String.mk w, r) ∈ pairs := by
  induction rules generalizing pairs with
  | nil => cases hr
  | cons a as ih =>
    unfold headsOf at h
    cases hsa : splitWs a.data with
    | nil => rw [hsa] at h; cases h
    | cons w' ws' =>
      rw [hsa] at h
      cases has : headsOf as with
      | none => rw [has] at h; cases h
      | some ps =>
        rw [has] at h
        simp only [Option.map_some] at h
        cases h
        rcases List.mem_cons.mp hr with rfl | hr2
        · rw [hsa] at hw
          cases hw
          exact List.mem_cons_self _ _
        · exact List.mem_cons_of_mem _ (ih ps has hr2)

theorem headsOf_pair_mem (rules : List String) (pairs : List (String × String))
    (p : String × String) (h : headsOf rules = some pairs) (hp : p ∈ pairs) :
    p.2 ∈ rules := by
  induction rules generalizing pairs with
  | nil =>
    unfold headsOf at h
    cases h
    cases hp
  | cons a as ih =>
    unfold headsOf at h
    cases hsa : splitWs a.data with
    | nil => rw [hsa] at h; cases h
    | cons w' ws' =>
      rw [hsa] at h
      cases has : headsOf as with
      | none => rw [has] at h; cases h
      | some ps =>
        rw [has] at h
        simp only [Option.map_some] at h
        cases h
        rcases List.mem_cons.mp hp with rfl | hp2
        · exact List.mem_cons_self _ _
        · exact List.mem_cons_of_mem _ (ih ps has hp2)

theorem componentVote_deny_of_match (cfg : CommandPermissionsC) (comp : Command)
    (v : Permission) (r b : String) (w : List Char) (rws : List (List Char))
    (hv : componentVote cfg comp = some v) (hr : r ∈ cfg.deny)
    (hb : baseCmdOf comp = some b) (hw : splitWs r.data = w :: rws)
    (hmkw : String.mk w = b) (hm : matchesRule comp.command r = true) :
    v = Permission.DENY := by
  cases hinv : comp.invalid with
  | true =>
    simp only [componentVote, hb, hinv, if_true] at hv
    cases hv
    rfl
  | false =>
    simp only [componentVote, hb, hinv, Bool.false_eq_true, if_false] at hv
    cases hd : headsOf cfg.deny with
    | none => simp only [hd] at hv; exact Option.noConfusion hv
    | some dpairs =>
      simp only [hd] at hv
      have hmem : (String.mk w, r) ∈ dpairs :=
        headsOf_mem_pair cfg.deny dpairs r w rws hd hr hw
      have hfil : (String.mk w, r) ∈ dpairs.filter (fun p => decide (p.1 = b)) := by
        refine List.mem_filter.mpr ⟨hmem, ?_⟩
        simp [hmkw]
      have hany : (dpairs.filter (fun p => decide (p.1 = b))).any
          (fun p => matchesRule comp.command p.2) = true :=
        List.any_eq_true.mpr ⟨(String.mk w, r), hfil, hm⟩
      rw [hany] at hv
      simp only [if_true] at hv
      cases hv
      rfl

theorem permitLoop_deny_of_match (cfg : CommandPermissionsC) (comps : List Command)
    (results : List Permission) (d : Permission) (comp : Command) (r b : String)
    (w : List Char) (rws : List (List Char))
    (hl : permitLoop cfg comps results = some d) (hc : comp ∈ comps)
    (hr : r ∈ cfg.deny) (hb : baseCmdOf comp = some b)
    (hw : splitWs r.data = w :: rws) (hmkw : String.mk w = b)
    (hm : matchesRule comp.command r = true) :
    d = Permission.DENY := by
  induction comps generalizing results with
  | nil => cases hc
  | cons c0 cs ih =>
    unfold permitLoop at hl
    cases hv : componentVote cfg c0 with
    | none => rw [hv] at hl; cases hl
    | some v =>
      rw [hv] at hl
      cases v with
      | DENY => cases hl; rfl
      | APPROVE =>
        rcases List.mem_cons.mp hc with heq | hc2
        · have hv2 : componentVote cfg comp = some Permission.APPROVE := by
            rw [heq]; exact hv
          have habs :=
            componentVote_deny_of_match cfg comp Permission.APPROVE r b w rws hv2 hr hb hw hmkw hm
          exact absurd habs (by decide)
        · exact ih (results ++ [Permission.APPROVE]) hl hc2
      | ASK =>
        rcases List.mem_cons.mp hc with heq | hc2
        · have hv2 : componentVote cfg comp = some Permission.ASK := by
            rw [heq]; exact hv
          have habs :=
            componentVote_deny_of_match cfg comp Permission.ASK r b w rws hv2 hr hb hw hmkw hm
          exact absurd habs (by decide)
        · exact ih (results ++ [Permission.ASK]) hl hc2

/-! ## Claim theorems -/

/-- C1, counterexample: the component `dpkg -l` matches the deny rule
`dpkg:-l` under the rule-matching contract (`matches_rule`), an allow rule
with the same base command (`dpkg`) also matches, yet the overall decision
is `APPROVE`, not `DENY`: the deny rule is eliminated by the base-command
prefilter `rule.split()[0] == base_cmd` before `matches_rule` is ever
consulted. -/
theorem C1_counterexample :
    matchesRule "dpkg -l" "dpkg:-l" = true ∧
    permitCommand ⟨["dpkg"], ["dpkg:-l"], true⟩ "dpkg -l" = some Permission.APPROVE ∧
    some Permission.APPROVE ≠ some Permission.DENY := by
  refine ⟨by decide, by decide, by decide⟩

/-- C1, amended: if evaluation returns a decision and some component
matches a deny rule that also survives the base-command prefilter (the
rule's first whitespace token equals the component's base command), then
the decision is `DENY`, even when allow rules match: deny rules are
checked before allow rules for each component. -/
theorem C1_deny_precedence (cfg : CommandPermissionsC) (cmd : String) (d : Permission)
    (comp : Command) (r b : String) (w : List Char) (rws : List (List Char))
    (hperm : permitCommand cfg cmd = some d) (hcomp : comp ∈ normalizeCommand cmd)
    (hr : r ∈ cfg.deny) (hb : baseCmdOf comp = some b)
    (hw : splitWs r.data = w :: rws) (hmkw : String.mk w = b)
    (hm : matchesRule comp.command r = true) :
    d = Permission.DENY := by
  unfold permitCommand at hperm
  have hne : normalizeCommand cmd ≠ [] := by
    intro h
    rw [h] at hcomp
    cases hcomp
  rw [if_neg hne] at hperm
  exact permitLoop_deny_of_match cfg (normalizeCommand cmd) [] d comp r b w rws
    hperm hcomp hr hb hw hmkw hm

/-- C1, witness: with `deny = ["rm"]` and the command `rm -rf x`, all
hypotheses of the amended theorem hold concretely and the decision is
`DENY`. -/
theorem C1_witness :
    permitCommand ⟨[], ["rm"], true⟩ "rm -rf x" = some Permission.DENY ∧
    Permission.DENY = Permission.DENY :=
  ⟨by decide,
    C1_deny_precedence ⟨[], ["rm"], true⟩ "rm -rf x" Permission.DENY
      { command := "rm -rf x" } "rm" "rm" ['r', 'm'] []
      (by decide) (by decide) (by decide) (by decide) (by decide) (by decide) (by decide)⟩

/-- C5: evaluation can raise past the public boundary.  On the input
`bash -c " "` normalization produces a `via_bash` component whose text is
the inner script `" "`; in `permit_command` that text is non-empty, so
`component.command.split()[0]` is evaluated on a whitespace-only string
whose `split()` is empty, raising `IndexError` (modelled by `none`)
instead of returning a decision. -/
theorem C5_crash :
    normalizeCommand "bash -c \" \"" =
      [{ command := " ", has_redirection := false, via_bash := true, invalid := false }] ∧
    permitCommand ⟨[], [], true⟩ "bash -c \" \"" = none := by
  refine ⟨by decide, by decide⟩

/-- C2, counterexample: with `ask_if_unspecified = false`, a command whose
single component matches no rule evaluates to `ASK`, not the claimed
`DENY`, and so does the zero-component command `""` — `permit_command`
never consults `ask_if_unspecified`. -/
theorem C2_counterexample :
    permitCommand ⟨[], [], false⟩ "foo" = some Permission.ASK ∧
    permitCommand ⟨[], [], false⟩ "" = some Permission.ASK ∧
    Permission.ASK ≠ Permission.DENY := by
  refine ⟨by decide, by decide, by decide⟩

/-- C2, amended: a component that matches no allow rule and no deny rule
always votes `ASK` (never a silent `APPROVE`), and a command with zero
components always evaluates to `ASK` — in both cases regardless of the
configured `ask_if_unspecified`, which `permit_command` ignores. -/
theorem C2_unspecified_votes_ask (cfg : CommandPermissionsC) (cmd : String)
    (comp : Command) (v : Permission) :
    (normalizeCommand cmd = [] → permitCommand cfg cmd = some Permission.ASK) ∧
    (componentVote cfg comp = some v → comp.invalid = false →
      (∀ r ∈ cfg.deny, matchesRule comp.command r = false) →
      (∀ r ∈ cfg.allow, matchesRule comp.command r = false) →
      v = Permission.ASK) := by
  constructor
  · intro h
    simp [permitCommand, h]
  · intro hv hinv hdeny hallow
    cases hbase : baseCmdOf comp with
    | none =>
      simp only [componentVote, hbase] at hv
      exact Option.noConfusion hv
    | some base =>
      simp only [componentVote, hbase, hinv, Bool.false_eq_true, if_false] at hv
      cases hdh : headsOf cfg.deny with
      | none => simp only [hdh] at hv; exact Option.noConfusion hv
      | some dpairs =>
        simp only [hdh] at hv
        have hdany : (dpairs.filter (fun p => decide (p.1 = base))).any
            (fun p => matchesRule comp.command p.2) = false := by
          rw [List.any_eq_false]
          intro p hp
          have hpd : p.2 ∈ cfg.deny :=
            headsOf_pair_mem cfg.deny dpairs p hdh (List.mem_filter.mp hp).1
          simp [hdeny p.2 hpd]
        rw [hdany] at hv
        simp only [Bool.false_eq_true, if_false] at hv
        cases hah : headsOf cfg.allow with
        | none => simp only [hah] at hv; exact Option.noConfusion hv
        | some apairs =>
          simp only [hah] at hv
          have haany : (apairs.filter (fun p => decide (p.1 = base))).any
              (fun p => matchesRule comp.command p.2) = false := by
            rw [List.any_eq_false]
            intro p hp
            have hpa : p.2 ∈ cfg.allow :=
              headsOf_pair_mem cfg.allow apairs p hah (List.mem_filter.mp hp).1
            simp [hallow p.2 hpa]
          rw [haany] at hv
          simp only [Bool.false_eq_true, if_false] at hv
          cases hv
          rfl

/-- C2, witness: with `ask_if_unspecified = false`, the empty command and
an unmatched component both produce `ASK`. -/
theorem C2_witness :
    permitCommand ⟨[], [], false⟩ "" = some Permission.ASK ∧
    Permission.ASK = Permission.ASK :=
  ⟨(C2_unspecified_votes_ask ⟨[], [], false⟩ "" { command := "foo" } Permission.ASK).1
      (by decide),
    (C2_unspecified_votes_ask ⟨[], [], false⟩ "" { command := "foo" } Permission.ASK).2
      (by decide) (by decide)
      (fun r hr => absurd hr (List.not_mem_nil r))
      (fun r hr => absurd hr (List.not_mem_nil r))⟩

/-- Loop invariant for C3: when every remaining component has a defined
vote and no `DENY` has been accumulated, the loop returns the
most-restrictive combination of accumulated and remaining votes. -/
theorem permitLoop_combine (cfg : CommandPermissionsC) (comps : List Command)
    (results : List Permission) (votes : List Permission)
    (h : componentVotes cfg comps = some votes) (hnd : Permission.DENY ∉ results) :
    permitLoop cfg comps results = some (combineVotes (results ++ votes)) := by
  induction comps generalizing results votes with
  | nil =>
    unfold componentVotes at h
    cases h
    unfold permitLoop combineVotes
    rw [List.append_nil]
    rw [if_neg hnd]
  | cons c0 cs ih =>
    unfold componentVotes at h
    cases hv : componentVote cfg c0 with
    | none => rw [hv] at h; exact Option.noConfusion h
    | some v =>
      rw [hv] at h
      cases hvs : componentVotes cfg cs with
      | none => rw [hvs] at h; exact Option.noConfusion h
      | some vs =>
        rw [hvs] at h
        cases h
        unfold permitLoop
        rw [hv]
        cases v with
        | DENY =>
          have : Permission.DENY ∈ results ++ Permission.DENY :: vs := by simp
          simp [combineVotes, this]
        | APPROVE =>
          have hnd2 : Permission.DENY ∉ results ++ [Permission.APPROVE] := by
            simp [hnd]
          rw [List.append_cons]
          exact ih (results ++ [Permission.APPROVE]) vs hvs hnd2
        | ASK =>
          have hnd2 : Permission.DENY ∉ results ++ [Permission.ASK] := by
            simp [hnd]
          rw [List.append_cons]
          exact ih (results ++ [Permission.ASK]) vs hvs hnd2

/-- C3: for a compound command in which every component's vote is defined,
the overall decision is the most restrictive of the per-component votes:
any `DENY` vote makes the whole `DENY`, otherwise any `ASK` vote makes the
whole `ASK`, and the whole is `APPROVE` only when every vote is
`APPROVE`. -/
theorem C3_most_restrictive (cfg : CommandPermissionsC) (cmd : String)
    (votes : List Permission) (h1 : normalizeCommand cmd ≠ [])
    (h2 : componentVotes cfg (normalizeCommand cmd) = some votes) :
    permitCommand cfg cmd = some (combineVotes votes) := by
  unfold permitCommand
  rw [if_neg h1]
  have := permitLoop_combine cfg (normalizeCommand cmd) [] votes h2 (by simp)
  rw [this]
  rw [List.nil_append]

/-- C3, witness: `ls -la | foo` with `allow = ["ls"]` has votes
`[APPROVE, ASK]` and evaluates to their most restrictive combination
`ASK`. -/
theorem C3_witness :
    componentVotes ⟨["ls"], ["rm"], true⟩ (normalizeCommand "ls -la | foo") =
      some [Permission.APPROVE, Permission.ASK] ∧
    permitCommand ⟨["ls"], ["rm"], true⟩ "ls -la | foo" =
      some (combineVotes [Permission.APPROVE, Permission.ASK]) :=
  ⟨by decide,
    C3_most_restrictive ⟨["ls"], ["rm"], true⟩ "ls -la | foo"
      [Permission.APPROVE, Permission.ASK] (by decide) (by decide)⟩

/-- C10: in the result assembled after the child process terminates, the
`error` field is `none` whenever the exit code is `0` (even with non-empty
stderr), and a populated `error` field implies a non-zero exit code and
carries exactly the decoded stderr. -/
theorem C10_error_only_on_failure (cmd out err : String) (rc : Int) :
    (rc = 0 → (buildExecResult cmd out err rc).error = none) ∧
    ((buildExecResult cmd out err rc).error ≠ none →
      rc ≠ 0 ∧ (buildExecResult cmd out err rc).error = some err) := by
  constructor
  · intro h
    simp [buildExecResult, h]
  · intro h
    by_cases hc : err ≠ "" ∧ rc ≠ 0
    · exact ⟨hc.2, by simp [buildExecResult, hc]⟩
    · exact absurd (by simp [buildExecResult, hc] : (buildExecResult cmd out err rc).error = none) h

/-- C10, witness: exit code `0` with stderr `boom` yields no error; exit
code `2` with the same stderr yields `some "boom"`. -/
theorem C10_witness :
    (buildExecResult "cmd" "out" "boom" 0).error = none ∧
    (2 : Int) ≠ 0 ∧ (buildExecResult "cmd" "out" "boom" 2).error = some "boom" :=
  ⟨(C10_error_only_on_failure "cmd" "out" "boom" 0).1 rfl,
    ((C10_error_only_on_failure "cmd" "out" "boom" 2).2 (by decide)).1,
    ((C10_error_only_on_failure "cmd" "out" "boom" 2).2 (by decide)).2⟩

theorem trimL_eq_nil_all_space (l : List Char) (h : trimL l = []) :
    ∀ c ∈ l, isSpace c = true := by
  have h1 : (l.dropWhile isSpace).reverse.dropWhile isSpace = [] :=
    List.reverse_eq_nil_iff.mp h
  have h2 : ∀ c ∈ (l.dropWhile isSpace).reverse, isSpace c = true :=
    List.dropWhile_eq_nil_iff.mp h1
  have h3 : ∀ c ∈ l.dropWhile isSpace, isSpace c = true :=
    fun c hc => h2 c (List.mem_reverse.mpr hc)
  intro c hc
  rw [← List.takeWhile_append_dropWhile (p := isSpace) (l := l)] at hc
  rcases List.mem_append.mp hc with h4 | h4
  · exact List.mem_takeWhile_imp h4
  · exact h3 c h4

theorem splitAux_space (l : List Char) (h : ∀ c ∈ l, isSpace c = true) :
    ∀ acc qc, splitAux l acc false qc false = flushAcc (acc ++ l) none := by
  induction l with
  | nil =>
    intro acc qc
    rw [List.append_nil]
    rfl
  | cons c rest ih =>
    intro acc qc
    have hrest : ∀ x ∈ rest, isSpace x = true := fun x hx => h x (List.mem_cons_of_mem _ hx)
    have hcc : c = ' ' ∨ c = '\t' ∨ c = '\n' ∨ c = '\r' := by
      have := h c (List.mem_cons_self _ _)
      simpa [isSpace] using this
    have step : splitAux (c :: rest) acc false qc false =
        splitAux rest (acc ++ [c]) false qc false := by
      rcases hcc with rfl | rfl | rfl | rfl <;> cases rest <;> rfl
    rw [step, ih hrest (acc ++ [c])]
    simp [List.append_assoc]

theorem splitCommand_ws (s : String) (h : trimL s.data = []) : splitCommand s = [] := by
  unfold splitCommand
  rw [splitAux_space s.data (trimL_eq_nil_all_space s.data h) [] none]
  simp [flushAcc, h]

theorem permitCommand_ws (cfg : CommandPermissionsC) (s : String)
    (h : trimL s.data = []) : permitCommand cfg s = some Permission.ASK := by
  unfold permitCommand normalizeCommand
  rw [splitCommand_ws s h]
  rfl

/-- C9: whenever the permission decision for a command is `DENY`, the
executor returns immediately with `success = false`, empty output, exit
code `1` and an error message describing the denial — the outcome is a
`done` value, so no child process is spawned. -/
theorem C9_deny_no_spawn (cfg : CommandPermissionsC) (cmd : String)
    (autoApprove userConfirms : Bool)
    (h : permitCommand cfg cmd = some Permission.DENY) :
    executeCommandPhase cfg cmd autoApprove userConfirms =
      some (.done false ""
        (some ("Command " ++ String.mk [squote] ++ cmd ++ String.mk [squote]
          ++ " is not allowed by bot permissions")) 1) := by
  have hne : ¬ (cmd = "" ∨ trimL cmd.data = []) := by
    rintro (rfl | hws)
    · rw [permitCommand_ws cfg "" (by decide)] at h
      simp at h
    · rw [permitCommand_ws cfg cmd hws] at h
      simp at h
  unfold executeCommandPhase
  rw [if_neg hne, h]

/-- C9, witness: `rm -rf /tmp/x` under `deny = ["rm"]` is denied and the
executor returns the denial result without spawning. -/
theorem C9_witness :
    permitCommand ⟨[], ["rm"], true⟩ "rm -rf /tmp/x" = some Permission.DENY ∧
    executeCommandPhase ⟨[], ["rm"], true⟩ "rm -rf /tmp/x" false false =
      some (.done false ""
        (some ("Command " ++ String.mk [squote] ++ "rm -rf /tmp/x" ++ String.mk [squote]
          ++ " is not allowed by bot permissions")) 1) :=
  ⟨by decide, C9_deny_no_spawn ⟨[], ["rm"], true⟩ "rm -rf /tmp/x" false false (by decide)⟩

theorem lookupKey_setKey_self (m : List (String × Bool)) (k : String) (v : Bool) :
    lookupKey (setKey m k v) k = some v := by
  induction m with
  | nil => simp [setKey, lookupKey]
  | cons p rest ih =>
    obtain ⟨k1, v1⟩ := p
    by_cases h : k1 = k
    · simp [setKey, h, lookupKey]
    · simp [setKey, h, lookupKey, ih]

theorem lookupKey_setKey_ne (m : List (String × Bool)) (k k' : String) (v : Bool)
    (h : k ≠ k') : lookupKey (setKey m k v) k' = lookupKey m k' := by
  induction m with
  | nil => simp [setKey, lookupKey, h]
  | cons p rest ih =>
    obtain ⟨k1, v1⟩ := p
    by_cases hp : k1 = k
    · subst hp
      simp [setKey, lookupKey, h]
    · simp [setKey, hp, lookupKey, ih]

theorem votesU_cons_hit (fn : String → String → Bool) (allow deny : List String)
    (askIf : Bool) (cache : List (String × Bool)) (comp : UComponent)
    (rest : List UComponent) (b : Bool) (hc : ¬ comp.command = "")
    (hl : lookupKey cache (comp.command ++ ":" ++ joinSpace comp.args) = some b) :
    votesU fn allow deny askIf cache (comp :: rest) =
      (if b then CommandAction.EXECUTE else CommandAction.DENY)
        :: votesU fn allow deny askIf cache rest := by
  simp only [votesU]
  rw [if_neg hc, hl]

theorem votesU_cache_congr (fn : String → String → Bool) (allow deny : List String)
    (askIf : Bool) (cache1 cache2 : List (String × Bool)) (comp : UComponent)
    (rest : List UComponent)
    (h : lookupKey cache1 (comp.command ++ ":" ++ joinSpace comp.args) =
      lookupKey cache2 (comp.command ++ ":" ++ joinSpace comp.args))
    (hrest : votesU fn allow deny askIf cache1 rest = votesU fn allow deny askIf cache2 rest) :
    votesU fn allow deny askIf cache1 (comp :: rest) =
      votesU fn allow deny askIf cache2 (comp :: rest) := by
  simp only [votesU]
  by_cases hc : comp.command = ""
  · rw [if_pos hc, if_pos hc, hrest]
  · rw [if_neg hc, if_neg hc, h, hrest]

/-- C8: for every fnmatch oracle, rule configuration and starting cache,
after `approve_command("cat file.txt")` (non-persistent) the allow list is
unchanged, immediately evaluating the same command yields `EXECUTE`
because the cache is consulted by `base:args` key before any rule check
(even a matching deny pattern cannot override it), and evaluating the
same base command with a different argument set (`cat other.txt`) is
completely unaffected by the approval. -/
theorem C8_cache_consistency (fn : String → String → Bool) (allow deny : List String)
    (askIf : Bool) (cache : List (String × Bool)) :
    (approveCommand allow cache "cat file.txt" false).1 = allow ∧
    validateCommand fn allow deny askIf (approveCommand allow cache "cat file.txt" false).2
      "cat file.txt" = CommandAction.EXECUTE ∧
    validateCommand fn allow deny askIf (approveCommand allow cache "cat file.txt" false).2
      "cat other.txt" = validateCommand fn allow deny askIf cache "cat other.txt" := by
  have hap : approveCommand allow cache "cat file.txt" false =
      (allow, setKey cache "cat:file.txt" true) := rfl
  have hnorm1 : normalizeCommandU "cat file.txt" =
      [⟨"cat", ["file.txt"], false, false⟩] := rfl
  have hnorm2 : normalizeCommandU "cat other.txt" =
      [⟨"cat", ["other.txt"], false, false⟩] := rfl
  refine ⟨by rw [hap], ?_, ?_⟩
  · rw [hap]
    have hl : lookupKey (setKey cache "cat:file.txt" true)
        (UComponent.command ⟨"cat", ["file.txt"], false, false⟩ ++ ":"
          ++ joinSpace (UComponent.args ⟨"cat", ["file.txt"], false, false⟩)) = some true :=
      lookupKey_setKey_self cache "cat:file.txt" true
    have hv := votesU_cons_hit fn allow deny askIf (setKey cache "cat:file.txt" true)
      ⟨"cat", ["file.txt"], false, false⟩ [] true (by decide) hl
    simp only [validateCommand, hnorm1, hv]
    simp [votesU]
  · rw [hap]
    have hl : lookupKey (setKey cache "cat:file.txt" true)
        (UComponent.command ⟨"cat", ["other.txt"], false, false⟩ ++ ":"
          ++ joinSpace (UComponent.args ⟨"cat", ["other.txt"], false, false⟩)) =
        lookupKey cache
          (UComponent.command ⟨"cat", ["other.txt"], false, false⟩ ++ ":"
            ++ joinSpace (UComponent.args ⟨"cat", ["other.txt"], false, false⟩)) :=
      lookupKey_setKey_ne cache "cat:file.txt"
        ("cat" ++ ":" ++ joinSpace ["other.txt"]) true (by decide)
    have hv := votesU_cache_congr fn allow deny askIf (setKey cache "cat:file.txt" true)
      cache ⟨"cat", ["other.txt"], false, false⟩ [] hl rfl
    simp only [validateCommand, hnorm2, hv]

theorem stripRedirLoop_char (ts : List String) (raw : List Char) :
    (stripRedirLoop ts raw = (raw, false) ∧
      ∀ t ∈ ts, ∀ i, findIdx raw t.data = some i → isInQuotes raw i = true) ∨
    (∃ pre t post, ts = pre ++ t :: post ∧
      (∀ t2 ∈ pre, ∀ i, findIdx raw t2.data = some i → isInQuotes raw i = true) ∧
      ∃ i, findIdx raw t.data = some i ∧ isInQuotes raw i = false ∧
        stripRedirLoop ts raw = (trimL (raw.take i), true)) := by
  induction ts with
  | nil =>
    left
    exact ⟨rfl, fun t ht => absurd ht (List.not_mem_nil t)⟩
  | cons t0 ts ih =>
    cases hf : findIdx raw t0.data with
    | none =>
      have heq : stripRedirLoop (t0 :: ts) raw = stripRedirLoop ts raw := by
        simp [stripRedirLoop, hf]
      have hskip0 : ∀ i, findIdx raw t0.data = some i → isInQuotes raw i = true := by
        intro i hfi
        rw [hf] at hfi
        exact Option.noConfusion hfi
      rcases ih with ⟨h1, h2⟩ | ⟨pre, t, post, hdec, hpre, i, hfi, hqi, hres⟩
      · left
        refine ⟨by rw [heq]; exact h1, ?_⟩
        intro t ht i hfi
        rcases List.mem_cons.mp ht with rfl | ht2
        · exact hskip0 i hfi
        · exact h2 t ht2 i hfi
      · right
        refine ⟨t0 :: pre, t, post, by rw [hdec, List.cons_append], ?_, i, hfi, hqi,
          by rw [heq]; exact hres⟩
        intro t2 ht2 i2 hfi2
        rcases List.mem_cons.mp ht2 with rfl | ht3
        · exact hskip0 i2 hfi2
        · exact hpre t2 ht3 i2 hfi2
    | some i0 =>
      by_cases hq0 : isInQuotes raw i0 = true
      · have heq : stripRedirLoop (t0 :: ts) raw = stripRedirLoop ts raw := by
          simp [stripRedirLoop, hf, hq0]
        have hskip0 : ∀ i, findIdx raw t0.data = some i → isInQuotes raw i = true := by
          intro i hfi
          rw [hf] at hfi
          cases hfi
          exact hq0
        rcases ih with ⟨h1, h2⟩ | ⟨pre, t, post, hdec, hpre, i, hfi, hqi, hres⟩
        · left
          refine ⟨by rw [heq]; exact h1, ?_⟩
          intro t ht i hfi
          rcases List.mem_cons.mp ht with rfl | ht2
          · exact hskip0 i hfi
          · exact h2 t ht2 i hfi
        · right
          refine ⟨t0 :: pre, t, post, by rw [hdec, List.cons_append], ?_, i, hfi, hqi,
            by rw [heq]; exact hres⟩
          intro t2 ht2 i2 hfi2
          rcases List.mem_cons.mp ht2 with rfl | ht3
          · exact hskip0 i2 hfi2
          · exact hpre t2 ht3 i2 hfi2
      · have heq : stripRedirLoop (t0 :: ts) raw = (trimL (raw.take i0), true) := by
          simp [stripRedirLoop, hf, hq0]
        right
        exact ⟨[], t0, ts, rfl, fun t2 ht2 => absurd ht2 (List.not_mem_nil t2), i0, hf,
          Bool.not_eq_true _ ▸ eq_false_of_ne_true hq0, heq⟩

/-- C7, counterexample: in the subcommand `echo ">" > f` the first
occurrence of the token `>` is the quoted one, so the redirection test
(which inspects only the first occurrence of each token) skips `>`
entirely; the later unquoted `>` causes no truncation, `has_redirection`
stays `false` and the text is kept whole, against the claimed truncation
to `echo ">"` with `has_redirection = true`. -/
theorem C7_counterexample :
    normalizeCommand "echo \">\" > f" =
      [{ command := "echo \">\" > f", has_redirection := false, via_bash := false,
         invalid := false }] ∧
    normalizeCommand "echo \">\" > f" ≠
      [{ command := "echo \">\"", has_redirection := true, via_bash := false,
         invalid := false }] := by
  refine ⟨by decide, by decide⟩

/-- C7, amended: the redirection pass examines the tokens of the fixed
list in order.  For every subcommand, either no token's first occurrence
is unquoted — each token in the list either does not occur or has its
first occurrence inside quotes — and the subcommand is left untouched
with `has_redirection = false`; or the list decomposes as
`pre ++ t :: post` where every token of `pre` is skipped (absent, or
first occurrence quoted) and `t`, the first listed token whose first
occurrence is unquoted, is where truncation happens: the subcommand is
truncated to the trimmed text before the first occurrence of exactly
this `t`, with `has_redirection = true`.  Only first occurrences are
ever tested: a token whose first occurrence is quoted causes no
truncation even when a later occurrence of the same token is unquoted. -/
theorem C7_redirection_first_occurrence (raw : List Char) :
    (stripRedirLoop redirTokens raw = (raw, false) ∧
      ∀ t ∈ redirTokens, ∀ i, findIdx raw t.data = some i → isInQuotes raw i = true) ∨
    (∃ pre t post, redirTokens = pre ++ t :: post ∧
      (∀ t2 ∈ pre, ∀ i, findIdx raw t2.data = some i → isInQuotes raw i = true) ∧
      ∃ i, findIdx raw t.data = some i ∧ isInQuotes raw i = false ∧
        stripRedirLoop redirTokens raw = (trimL (raw.take i), true)) :=
  stripRedirLoop_char redirTokens raw

/-- C7, witness: on `a < b > c` the amended characterization holds and
pins the order: the result is `a < b` — truncation happens at the
unquoted `>` (first in the fixed list), not at the later-listed `<`,
even though `<` also occurs unquoted and earlier in the text. -/
theorem C7_witness :
    stripRedirLoop redirTokens ("a < b > c".data) = ("a < b".data, true) ∧
    ((stripRedirLoop redirTokens ("a < b > c".data) = ("a < b > c".data, false) ∧
      ∀ t ∈ redirTokens, ∀ i, findIdx ("a < b > c".data) t.data = some i →
        isInQuotes ("a < b > c".data) i = true) ∨
    (∃ pre t post, redirTokens = pre ++ t :: post ∧
      (∀ t2 ∈ pre, ∀ i, findIdx ("a < b > c".data) t2.data = some i →
        isInQuotes ("a < b > c".data) i = true) ∧
      ∃ i, findIdx ("a < b > c".data) t.data = some i ∧
        isInQuotes ("a < b > c".data) i = false ∧
        stripRedirLoop redirTokens ("a < b > c".data) =
          (trimL (("a < b > c".data).take i), true))) :=
  ⟨by decide, C7_redirection_first_occurrence ("a < b > c".data)⟩

theorem splitAux_step_quoted (c : Char) (l acc : List Char) (q : Char)
    (hbs : c ≠ '\\') (hqc : c ≠ q) :
    splitAux (c :: l) acc true (some q) false = splitAux l (acc ++ [c]) true (some q) false := by
  have hqc2 : q ≠ c := fun h => hqc h.symm
  have hq : quoteStep c true (some q) false = (true, some q) := by
    unfold quoteStep
    by_cases hc : c = '"' ∨ c = '\''
    · simp [hc, hqc2]
    · simp [hc]
  cases l with
  | nil => simp [splitAux, hbs, hq]
  | cons c2 r2 => simp [splitAux, hbs, hq]

theorem splitAux_in_quotes (w : List Char) (q : Char)
    (hw : ∀ c ∈ w, c ≠ q ∧ c ≠ '\\') (rest acc : List Char) :
    splitAux (w ++ rest) acc true (some q) false =
      splitAux rest (acc ++ w) true (some q) false := by
  induction w generalizing acc with
  | nil => rw [List.nil_append, List.append_nil]
  | cons c w2 ih =>
    have hc := hw c (List.mem_cons_self _ _)
    rw [List.cons_append, splitAux_step_quoted c (w2 ++ rest) acc q hc.2 hc.1,
      ih (fun x hx => hw x (List.mem_cons_of_mem _ hx)) (acc ++ [c]), List.append_assoc]
    rfl

theorem splitAux_open_quote (q : Char) (hq : q = '"' ∨ q = '\'') (l acc : List Char)
    (qc : Option Char) :
    splitAux (q :: l) acc false qc false =
      splitAux l (acc ++ [q]) true (some q) false := by
  rcases hq with rfl | rfl <;> cases l <;> rfl

theorem splitAux_close_quote (q : Char) (hq : q = '"' ∨ q = '\'') (l acc : List Char) :
    splitAux (q :: l) acc true (some q) false =
      splitAux l (acc ++ [q]) false none false := by
  rcases hq with rfl | rfl <;> cases l <;> rfl

/-- C6: quote safety, in two parts.
Splitting: from any unquoted scan state — arbitrary already-accumulated
component text `acc` and arbitrary remaining input `rest` — a matched
quoted group `q w q` (either quote kind, with the content `w` free of
the quote character itself and of backslash; in particular `w` may
contain any compound operators `|`, `&&`, `||`, `;` and any redirection
tokens) is copied verbatim into the current component: the scan resumes
after the closing quote, unquoted, in the same component, with exactly
the group appended to the accumulator — so nothing inside matched
quotes is ever treated as an operator or causes a component split.
Redirection stripping: whenever the redirection pass truncates a
subcommand, the truncation index is the unquoted first occurrence of a
redirection token — a position that the quote tracker reports as inside
quotes is never a truncation point, so a redirection token whose first
occurrence lies inside quotes never causes a truncation. -/
theorem C6_quote_safety :
    (∀ (q : Char), (q = '"' ∨ q = '\'') → ∀ (w : List Char),
      (∀ c ∈ w, c ≠ q ∧ c ≠ '\\') → ∀ (acc rest : List Char),
        splitAux (q :: (w ++ (q :: rest))) acc false none false =
          splitAux rest (((acc ++ [q]) ++ w) ++ [q]) false none false) ∧
    (∀ (raw res : List Char), stripRedirLoop redirTokens raw = (res, true) →
      ∃ t ∈ redirTokens, ∃ i, findIdx raw t.data = some i ∧ isInQuotes raw i = false ∧
        res = trimL (raw.take i)) := by
  constructor
  · intro q hq w hw acc rest
    rw [splitAux_open_quote q hq (w ++ (q :: rest)) acc none,
      splitAux_in_quotes w q hw (q :: rest) (acc ++ [q]),
      splitAux_close_quote q hq rest ((acc ++ [q]) ++ w)]
  · intro raw res h
    rcases stripRedirLoop_char redirTokens raw with
      ⟨h1, _⟩ | ⟨pre, t, post, hdec, hpre, i, hfi, hqi, hres⟩
    · rw [h1] at h
      simp at h
    · refine ⟨t, ?_, i, hfi, hqi, ?_⟩
      · rw [hdec]
        exact List.mem_append.mpr (Or.inr (List.mem_cons_self _ _))
      · rw [hres] at h
        exact (congrArg Prod.fst h).symm

/-- C6, witness: the double-quoted group `"ls | rm > f ; a && b"` placed
after an arbitrary accumulated prefix (`echo `) and before further input
(` more`) is copied verbatim by the splitter with the scan continuing
unquoted in the same component; and the truncation of `ls > f` to `ls`
happens at an unquoted first occurrence of a redirection token. -/
theorem C6_witness :
    (splitAux ('"' :: ("ls | rm > f ; a && b".data ++ ('"' :: " more".data)))
        ("echo ".data) false none false =
      splitAux (" more".data)
        ((("echo ".data ++ ['"']) ++ "ls | rm > f ; a && b".data) ++ ['"'])
        false none false) ∧
    (∃ t ∈ redirTokens, ∃ i, findIdx ("ls > f".data) t.data = some i ∧
      isInQuotes ("ls > f".data) i = false ∧
      ("ls".data : List Char) = trimL (("ls > f".data).take i)) :=
  ⟨C6_quote_safety.1 '"' (by decide) ("ls | rm > f ; a && b".data) (by decide)
      ("echo ".data) (" more".data),
    C6_quote_safety.2 ("ls > f".data) ("ls".data) (by decide)⟩

end Bots

